import Mathlib

/-!
Verification of the media decoder in `module/ffmedia.c` against its
natural-language specification.  The definitions below are a shallow
embedding of the C source: pure fragments become Lean functions, the
shared `MediaState` becomes an explicit record threaded through the
operations, C `int` / `unsigned` arithmetic is modelled on `Int` / `Nat`
with explicit wrap-around where it matters, and the intrusive linked
lists are modelled both abstractly (as Lean lists) and concretely (as a
heap of `opaque` next-pointers, for the FIFO proof).
-/

namespace FFMedia

/-- BPS, bytes per sample of the fixed output format (stereo s16):
`const int BPS = 4;` in ffmedia.c. -/
def BPS : Nat := 4

/-- AV_TIME_BASE, the FFmpeg time base used by the duration inference in
`decode_thread` (1 000 000 microseconds per second). -/
def AV_TIME_BASE : Int := 1000000

/-- A decoded and resampled PCM frame: its sample count (`nb_samples`)
and its interleaved payload bytes (`data[0]`). -/
structure Frame where
  nb_samples : Nat
  pdata : List Nat
deriving Repr, DecidableEq

/-- A frame is well formed when its payload holds exactly
`nb_samples * BPS` bytes, as the frames produced by the resampler do. -/
def frameWF (f : Frame) : Prop := f.pdata.length = BPS * f.nb_samples

/-- The fields of the C `MediaState` that the modelled operations touch.
`broadcasts` counts the `SDL_CondBroadcast(ms->cond)` calls performed so
far, so that theorems can talk about which operations signal the
condition variable.  `audio_queue` is the PCM `FrameQueue` viewed as the
list of its frames, front first (the linked-list representation itself
is verified separately, see `enqueue_frame` / `dequeue_frame` below).
`audio_queue_samples` is a C `int` and may go negative, hence `Int`. -/
structure MediaState where
  ready : Bool
  needs_decode : Bool
  quit : Bool
  started : Bool
  audio_finished : Bool
  broadcasts : Nat
  skip : ℚ
  audio_queue : List Frame
  audio_out_frame : Option Frame
  audio_out_index : Nat
  audio_queue_samples : Int
  audio_read_samples : Nat
  audio_duration : Nat
deriving Repr, DecidableEq

/-! ## The PCM frame queue as it is really laid out (claim C9)

`enqueue_frame` / `dequeue_frame` (ffmedia.c lines 238-262) store the
next-pointer inside the frame object itself, in its `opaque` field.  We
model frames by identifiers (`Nat`) and the heap of `opaque` fields by a
function `Nat → Option Nat`; the queue header holds the `first` and
`last` pointers. -/

/-- The heap of `opaque` next-pointers: for each frame identifier, the
frame identifier its `opaque` field points at (`none` is NULL). -/
def OpaqueHeap : Type := Nat → Option Nat

/-- The `FrameQueue` header: `first` and `last` pointers
(ffmedia.c lines 87-90). -/
structure CFrameQueue where
  first : Option Nat
  last : Option Nat
deriving Repr, DecidableEq

/-- Model of `enqueue_frame` (ffmedia.c lines 238-247).  Sets
`frame->opaque = NULL`; if the queue is non-empty, links
`fq->last->opaque = frame` and advances `last`, else sets both header
pointers to the frame.  The `some _, none` case dereferences a NULL
`last` in C; it is unreachable under the representation invariant and is
modelled as a no-op. -/
def enqueue_frame (h : OpaqueHeap) (fq : CFrameQueue) (f : Nat) :
    OpaqueHeap × CFrameQueue :=
  let h1 := Function.update h f none
  match fq.first, fq.last with
  | some _, some l => (Function.update h1 l (some f), ⟨fq.first, some f⟩)
  | some _, none => (h1, fq)
  | none, _ => (h1, ⟨some f, some f⟩)

/-- Model of `dequeue_frame` (ffmedia.c lines 249-262).  Returns NULL on
an empty queue; otherwise returns `first`, advances `first` to
`rv->opaque`, and clears `last` when the queue became empty.  The heap
is not modified. -/
def dequeue_frame (h : OpaqueHeap) (fq : CFrameQueue) :
    Option Nat × CFrameQueue :=
  match fq.first with
  | none => (none, fq)
  | some rv =>
    match h rv with
    | none => (some rv, ⟨none, none⟩)
    | some nxt => (some rv, ⟨some nxt, fq.last⟩)

/-- The pointer `o` heads a NULL-terminated `opaque`-chain traversing
exactly the identifiers in `L`, in order. -/
def chain (h : OpaqueHeap) : Option Nat → List Nat → Prop
  | none, [] => True
  | none, _ :: _ => False
  | some _, [] => False
  | some x, y :: ys => x = y ∧ chain h (h x) ys

/-- Representation invariant: the queue header `fq` over heap `h`
represents the list `L` of frames, front first. -/
def represents (h : OpaqueHeap) (fq : CFrameQueue) (L : List Nat) : Prop :=
  chain h fq.first L ∧ fq.last = L.getLast?

theorem chain_update_of_not_mem {h : OpaqueHeap} {x : Nat} {v : Option Nat}
    {o : Option Nat} {L : List Nat} (hx : x ∉ L) (hc : chain h o L) :
    chain (Function.update h x v) o L := by
  induction L generalizing o with
  | nil => cases o <;> simpa [chain] using hc
  | cons y ys ih =>
    cases o with
    | none => simp [chain] at hc
    | some z =>
      obtain ⟨rfl, hrest⟩ := hc
      refine ⟨rfl, ?_⟩
      have hzx : z ≠ x := by
        intro hzx
        exact hx (by simp [hzx.symm])
      rw [Function.update_noteq hzx]
      exact ih (fun hm => hx (List.mem_cons_of_mem _ hm)) hrest

theorem chain_snoc {h : OpaqueHeap} {L : List Nat} {l f : Nat} {o : Option Nat}
    (hc : chain h o L) (hnd : L.Nodup) (hf : f ∉ L)
    (hl : L.getLast? = some l) :
    chain (Function.update (Function.update h f none) l (some f)) o (L ++ [f]) := by
  induction L generalizing o with
  | nil => simp at hl
  | cons y ys ih =>
    cases o with
    | none => simp [chain] at hc
    | some z =>
      obtain ⟨rfl, hrest⟩ := hc
      cases ys with
      | nil =>
        have hlz : l = z := by simpa using hl.symm
        subst hlz
        have hfl : f ≠ l := by
          intro hfl
          exact hf (by simp [hfl])
        refine ⟨rfl, ?_⟩
        rw [Function.update_same]
        refine ⟨rfl, ?_⟩
        rw [Function.update_noteq hfl, Function.update_same]
        exact trivial
      | cons w ws =>
        have hl2 : (w :: ws).getLast? = some l := by
          rw [← hl]
          exact List.getLast?_cons_cons.symm
        have hlmem : l ∈ w :: ws := List.mem_of_mem_getLast? hl2
        have hzl : z ≠ l := by
          intro hzl
          exact (List.nodup_cons.mp hnd).1 (hzl ▸ hlmem)
        have hzf : z ≠ f := by
          intro hzf
          exact hf (by simp [hzf.symm])
        refine ⟨rfl, ?_⟩
        rw [Function.update_noteq hzl, Function.update_noteq hzf]
        exact ih hrest (List.nodup_cons.mp hnd).2
          (fun hm => hf (List.mem_cons_of_mem _ hm)) hl2

theorem represents_enqueue {h : OpaqueHeap} {fq : CFrameQueue} {L : List Nat}
    {f : Nat} (hrep : represents h fq L) (hnd : L.Nodup) (hf : f ∉ L) :
    represents (enqueue_frame h fq f).1 (enqueue_frame h fq f).2 (L ++ [f]) := by
  obtain ⟨hch, hlast⟩ := hrep
  cases L with
  | nil =>
    have hfirst : fq.first = none := by
      cases hfq : fq.first with
      | none => rfl
      | some x => rw [hfq] at hch; simp [chain] at hch
    have hlast2 : fq.last = none := by simpa using hlast
    simp only [enqueue_frame, hfirst, hlast2]
    refine ⟨⟨rfl, ?_⟩, by simp⟩
    rw [Function.update_same]
    exact trivial
  | cons y ys =>
    have hfirst : fq.first = some y := by
      cases hfq : fq.first with
      | none => rw [hfq] at hch; simp [chain] at hch
      | some x =>
        rw [hfq] at hch
        obtain ⟨rfl, -⟩ := hch
        rfl
    obtain ⟨l, hl⟩ : ∃ l, (y :: ys).getLast? = some l := by
      cases hgl : (y :: ys).getLast? with
      | none => simp at hgl
      | some l => exact ⟨l, rfl⟩
    have hlast2 : fq.last = some l := hlast.trans hl
    simp only [enqueue_frame, hfirst, hlast2]
    constructor
    · rw [hfirst] at hch
      exact chain_snoc hch hnd hf hl
    · show some f = ((y :: ys) ++ [f]).getLast?
      exact (List.getLast?_concat (y :: ys)).symm

theorem represents_dequeue_cons {h : OpaqueHeap} {fq : CFrameQueue}
    {x : Nat} {L : List Nat} (hrep : represents h fq (x :: L)) :
    (dequeue_frame h fq).1 = some x ∧
      represents h (dequeue_frame h fq).2 L := by
  obtain ⟨hch, hlast⟩ := hrep
  have hfirst : fq.first = some x := by
    cases hfq : fq.first with
    | none => rw [hfq] at hch; simp [chain] at hch
    | some z =>
      rw [hfq] at hch
      obtain ⟨rfl, -⟩ := hch
      rfl
  rw [hfirst] at hch
  obtain ⟨-, hrest⟩ := hch
  cases L with
  | nil =>
    have hhx : h x = none := by
      cases hhx : h x with
      | none => rfl
      | some z => rw [hhx] at hrest; simp [chain] at hrest
    simp [dequeue_frame, hfirst, hhx, represents, chain]
  | cons w ws =>
    have hhx : h x = some w := by
      cases hhx : h x with
      | none => rw [hhx] at hrest; simp [chain] at hrest
      | some z =>
        rw [hhx] at hrest
        obtain ⟨rfl, -⟩ := hrest
        rfl
    rw [hhx] at hrest
    refine ⟨by simp [dequeue_frame, hfirst, hhx], ?_⟩
    simp only [dequeue_frame, hfirst, hhx]
    refine ⟨hrest, ?_⟩
    rw [hlast]
    exact List.getLast?_cons_cons

theorem represents_dequeue_nil {h : OpaqueHeap} {fq : CFrameQueue}
    (hrep : represents h fq []) : dequeue_frame h fq = (none, fq) := by
  obtain ⟨hch, -⟩ := hrep
  have hfirst : fq.first = none := by
    cases hfq : fq.first with
    | none => rfl
    | some x => rw [hfq] at hch; simp [chain] at hch
  simp [dequeue_frame, hfirst]

/-- Enqueue every identifier of `fs`, left to right. -/
def enqueueAll (h : OpaqueHeap) (fq : CFrameQueue) : List Nat → OpaqueHeap × CFrameQueue
  | [] => (h, fq)
  | f :: fs =>
    let r := enqueue_frame h fq f
    enqueueAll r.1 r.2 fs

/-- Dequeue `n` times, collecting the returned (possibly NULL) frames. -/
def dequeueAll (h : OpaqueHeap) (fq : CFrameQueue) : Nat → List (Option Nat) × CFrameQueue
  | 0 => ([], fq)
  | n + 1 =>
    let r := dequeue_frame h fq
    let rest := dequeueAll h r.2 n
    (r.1 :: rest.1, rest.2)

theorem enqueueAll_represents {fs : List Nat} {h : OpaqueHeap}
    {fq : CFrameQueue} {L : List Nat} (hrep : represents h fq L)
    (hnd : (L ++ fs).Nodup) :
    represents (enqueueAll h fq fs).1 (enqueueAll h fq fs).2 (L ++ fs) := by
  induction fs generalizing h fq L with
  | nil => simpa using hrep
  | cons f fs ih =>
    have hndL : L.Nodup := (List.nodup_append.mp hnd).1
    have hfL : f ∉ L := by
      intro hm
      exact (List.nodup_append.mp hnd).2.2 hm (by simp)
    have step := represents_enqueue hrep hndL hfL
    have hnd2 : ((L ++ [f]) ++ fs).Nodup := by
      have : L ++ f :: fs = (L ++ [f]) ++ fs := by simp
      rwa [this] at hnd
    have := ih step hnd2
    simpa [enqueueAll] using this

theorem dequeueAll_represents {L : List Nat} {h : OpaqueHeap}
    {fq : CFrameQueue} (hrep : represents h fq L) :
    (dequeueAll h fq L.length).1 = L.map some ∧
      represents h (dequeueAll h fq L.length).2 [] := by
  induction L generalizing fq with
  | nil => simpa [dequeueAll] using hrep
  | cons x xs ih =>
    obtain ⟨hx, hrest⟩ := represents_dequeue_cons hrep
    have := ih hrest
    simp only [List.length_cons, dequeueAll, hx]
    constructor
    · simp [this.1]
    · simpa using this.2

/-- C9: the frame queue is a strict FIFO.  Enqueueing the (distinct)
frames `fs` on an initially empty queue and then dequeueing `fs.length`
times returns exactly `fs` in enqueue order and leaves the queue empty;
dequeueing an empty queue returns NULL and does not modify the queue. -/
theorem frame_queue_fifo (h : OpaqueHeap) (fs : List Nat) (hnd : fs.Nodup) :
    (dequeueAll (enqueueAll h ⟨none, none⟩ fs).1 (enqueueAll h ⟨none, none⟩ fs).2
        fs.length).1 = fs.map some ∧
    (dequeueAll (enqueueAll h ⟨none, none⟩ fs).1 (enqueueAll h ⟨none, none⟩ fs).2
        fs.length).2 = ⟨none, none⟩ ∧
    dequeue_frame h ⟨none, none⟩ = (none, ⟨none, none⟩) := by
  have hrep0 : represents h ⟨none, none⟩ [] := ⟨trivial, rfl⟩
  have hrep := enqueueAll_represents hrep0 (by simpa using hnd)
  simp only [List.nil_append] at hrep
  have hdeq := dequeueAll_represents hrep
  refine ⟨hdeq.1, ?_, represents_dequeue_nil hrep0⟩
  obtain ⟨hch, hlast⟩ := hdeq.2
  set q := (dequeueAll (enqueueAll h ⟨none, none⟩ fs).1
    (enqueueAll h ⟨none, none⟩ fs).2 fs.length).2 with hq
  obtain ⟨fst, lst⟩ := q
  have hfst : fst = none := by
    cases hf : fst with
    | none => rfl
    | some x => rw [hf] at hch; simp [chain] at hch
  have hlst : lst = none := by simpa using hlast
  rw [hfst, hlst]

/-- Witness for C9 at the concrete sequence `[3, 7]` over the all-NULL
heap. -/
theorem frame_queue_fifo_witness :
    ([3, 7] : List Nat).Nodup ∧
    (dequeueAll (enqueueAll (fun _ => none) ⟨none, none⟩ [3, 7]).1
        (enqueueAll (fun _ => none) ⟨none, none⟩ [3, 7]).2 2).1 =
      [some 3, some 7] :=
  ⟨by decide, (frame_queue_fifo (fun _ => none) [3, 7] (by decide)).1⟩

/-! ## The demuxer/router `read_packet` (claim C4) -/

/-- A demuxed container packet: its stream index, payload size and
payload pointer (`none` models a NULL `data` field). -/
structure Packet where
  stream_index : Int
  size : Nat
  pdata : Option (List Nat)
deriving Repr, DecidableEq

/-- The empty sentinel packet `read_packet` hands back on EOF
(ffmedia.c lines 321-322 set `data = NULL; size = 0` on the packet of the
caller; the other fields of that packet are not written, the
model uses stream index 0). -/
def emptyPacket : Packet := ⟨0, 0, none⟩

/-- The demuxer-side fields of `MediaState` that `read_packet` touches:
the two per-stream packet queues, the selected stream indices, and the
container, modelled as the list of packets `av_read_frame` has yet to
deliver (`[]` = EOF). -/
structure DemuxState where
  video_stream : Int
  audio_stream : Int
  video_packet_queue : List Packet
  audio_packet_queue : List Packet
  container : List Packet
deriving Repr, DecidableEq

/-- Which queue a `read_packet` call targets (in C, the `pq` pointer is
`&ms->audio_packet_queue` or `&ms->video_packet_queue`). -/
inductive PQTarget where
  | audio
  | video
deriving Repr, DecidableEq

/-- The target queue of a demux state. -/
def targetQueue (ms : DemuxState) : PQTarget → List Packet
  | .audio => ms.audio_packet_queue
  | .video => ms.video_packet_queue

/-- Replace the target queue of a demux state. -/
def setTargetQueue (ms : DemuxState) : PQTarget → List Packet → DemuxState
  | .audio, q => { ms with audio_packet_queue := q }
  | .video, q => { ms with video_packet_queue := q }

/-- The routing step of `read_packet` (ffmedia.c lines 328-334): a fresh
container packet goes to the video queue if its `stream_index` matches
the selected video stream, else to the audio queue if it matches the
selected audio stream, else it is freed. -/
def routePacket (ms : DemuxState) (p : Packet) : DemuxState :=
  if p.stream_index = ms.video_stream then
    { ms with video_packet_queue := ms.video_packet_queue ++ [p] }
  else if p.stream_index = ms.audio_stream then
    { ms with audio_packet_queue := ms.audio_packet_queue ++ [p] }
  else
    ms

/-- Model of `read_packet` (ffmedia.c lines 312-338).  Loop: dequeue
from the target queue if possible (success); otherwise read one packet
from the container — on EOF return the empty sentinel and failure —
and route it, then retry. -/
def read_packet (ms : DemuxState) (t : PQTarget) : Bool × Packet × DemuxState :=
  match hq : targetQueue ms t with
  | p :: rest => (true, p, setTargetQueue ms t rest)
  | [] =>
    match hc : ms.container with
    | [] => (false, emptyPacket, ms)
    | scratch :: more => read_packet (routePacket { ms with container := more } scratch) t
termination_by ms.container.length
decreasing_by
  simp only [routePacket]
  split <;> (try split) <;> simp [hc]

/-- Routing as the specification sentence words it, audio match listed
first: "to the audio queue if its stream_index matches the selected
audio stream, to the video queue if it matches the selected video
stream, else free it".  Written from the claim, for comparison with
`routePacket`. -/
def routePacket_spec_version (ms : DemuxState) (p : Packet) : DemuxState :=
  if p.stream_index = ms.audio_stream then
    { ms with audio_packet_queue := ms.audio_packet_queue ++ [p] }
  else if p.stream_index = ms.video_stream then
    { ms with video_packet_queue := ms.video_packet_queue ++ [p] }
  else
    ms

/-- Modelled from the spec: `read_packet` exactly as the specification
sentences describe it — dequeue from the target queue if possible, else
read a container packet, route it audio-first, repeat; on container EOF
return the empty sentinel and failure.  Written from the claim, for
comparison with `read_packet`. -/
def read_packet_spec_version (ms : DemuxState) (t : PQTarget) : Bool × Packet × DemuxState :=
  match hq : targetQueue ms t with
  | p :: rest => (true, p, setTargetQueue ms t rest)
  | [] =>
    match hc : ms.container with
    | [] => (false, emptyPacket, ms)
    | scratch :: more =>
      read_packet_spec_version
        (routePacket_spec_version { ms with container := more } scratch) t
termination_by ms.container.length
decreasing_by
  simp only [routePacket_spec_version]
  split <;> (try split) <;> simp [hc]

theorem routePacket_container (ms : DemuxState) (p : Packet) :
    (routePacket ms p).container = ms.container ∧
    (routePacket ms p).video_stream = ms.video_stream ∧
    (routePacket ms p).audio_stream = ms.audio_stream := by
  unfold routePacket
  split_ifs <;> simp

theorem routePacket_spec_version_container (ms : DemuxState) (p : Packet) :
    (routePacket_spec_version ms p).container = ms.container ∧
    (routePacket_spec_version ms p).video_stream = ms.video_stream ∧
    (routePacket_spec_version ms p).audio_stream = ms.audio_stream := by
  unfold routePacket_spec_version
  split_ifs <;> simp

theorem routePacket_eq_spec (ms : DemuxState) (p : Packet)
    (hvs : ms.video_stream ≠ ms.audio_stream) :
    routePacket ms p = routePacket_spec_version ms p := by
  unfold routePacket routePacket_spec_version
  by_cases h1 : p.stream_index = ms.video_stream <;>
    by_cases h2 : p.stream_index = ms.audio_stream
  · exact absurd (h1.symm.trans h2) hvs
  · simp [h1, h2, hvs]
  · simp [h1, h2, Ne.symm hvs]
  · simp [h1, h2]

theorem read_packet_eq_spec_aux : ∀ (n : Nat) (ms : DemuxState) (t : PQTarget),
    ms.container.length ≤ n → ms.video_stream ≠ ms.audio_stream →
    read_packet ms t = read_packet_spec_version ms t := by
  intro n
  induction n with
  | zero =>
    intro ms t hle hvs
    rw [read_packet.eq_def, read_packet_spec_version.eq_def]
    cases hq : targetQueue ms t with
    | cons p rest => simp
    | nil =>
      cases hc : ms.container with
      | cons scratch more => simp [hc] at hle
      | nil => simp [hc]
  | succ n ih =>
    intro ms t hle hvs
    rw [read_packet.eq_def, read_packet_spec_version.eq_def]
    cases hq : targetQueue ms t with
    | cons p rest => simp
    | nil =>
      cases hc : ms.container with
      | nil => simp [hc]
      | cons scratch more =>
        simp only [hq, hc]
        rw [routePacket_eq_spec { ms with container := more } scratch (by exact hvs)]
        apply ih
        · rw [(routePacket_spec_version_container _ _).1]
          show more.length ≤ n
          have hlen : ms.container.length = more.length + 1 := by rw [hc]; rfl
          omega
        · rw [(routePacket_spec_version_container _ _).2.1,
            (routePacket_spec_version_container _ _).2.2]
          exact hvs

/-- C4: `read_packet` dequeues from the target queue whenever it is
non-empty; otherwise it reads container packets one at a time, routing
each to the audio queue if its stream index equals the selected audio
stream, to the video queue if it equals the selected video stream, and
freeing it otherwise, until the target queue yields a packet or the
container reports EOF, in which case it fails with the empty sentinel
(data NULL, size 0).  Stated as equality with the claim-worded algorithm
`read_packet_spec_version`, plus the two boundary facts spelled out.
The selected stream indices are distinct whenever at least one stream
was selected, since a stream has a single codec type. -/
theorem read_packet_correct (ms : DemuxState) (t : PQTarget)
    (hvs : ms.video_stream ≠ ms.audio_stream) :
    read_packet ms t = read_packet_spec_version ms t ∧
    (∀ p rest, targetQueue ms t = p :: rest →
      read_packet ms t = (true, p, setTargetQueue ms t rest)) ∧
    (targetQueue ms t = [] → ms.container = [] →
      read_packet ms t = (false, emptyPacket, ms) ∧
        emptyPacket.pdata = none ∧ emptyPacket.size = 0) := by
  refine ⟨read_packet_eq_spec_aux ms.container.length ms t le_rfl hvs, ?_, ?_⟩
  · intro p rest hq
    rw [read_packet.eq_def]
    split
    · rename_i p2 rest2 heq
      rw [hq] at heq
      injection heq with h1 h2
      rw [h1, h2]
    · rename_i heq
      rw [hq] at heq
      exact absurd heq (by simp)
  · intro hq hc
    rw [read_packet.eq_def]
    split
    · rename_i p2 rest2 heq
      rw [hq] at heq
      exact absurd heq (by simp)
    · split
      · exact ⟨rfl, rfl, rfl⟩
      · rename_i scratch more heq2
        rw [hc] at heq2
        exact absurd heq2 (by simp)

/-- Witness for C4 at a concrete demux state: audio stream 1, video
stream 0, empty queues, a two-packet container, targeting audio. -/
theorem read_packet_correct_witness :
    ((0 : Int) ≠ (1 : Int)) ∧
    read_packet ⟨0, 1, [], [], [⟨0, 5, some [9]⟩, ⟨1, 3, some [8]⟩]⟩ .audio =
      read_packet_spec_version ⟨0, 1, [], [], [⟨0, 5, some [9]⟩, ⟨1, 3, some [8]⟩]⟩ .audio :=
  ⟨by decide,
    (read_packet_correct ⟨0, 1, [], [], [⟨0, 5, some [9]⟩, ⟨1, 3, some [8]⟩]⟩
      .audio (by decide)).1⟩

/-! ## The skip policy of decode_audio (claims C2, C3) -/

/-- Truncation toward zero: the semantics of the C cast `(int)` applied
to a nonnegative-or-negative double (ffmedia.c line 456). -/
def ctrunc (q : ℚ) : Int := if 0 ≤ q then ⌊q⌋ else -⌊-q⌋

theorem ctrunc_eq_floor {q : ℚ} (h : 0 ≤ q) : ctrunc q = ⌊q⌋ := if_pos h

/-- The skip-policy block of `decode_audio` (ffmedia.c lines 437-458),
applied to one converted frame `f`.  `start` is the frame timestamp
`pts * timebase` in seconds and `endT = start + nb_samples / rate`
(`end` is a reserved word).  A frame beginning at or after `ms.skip` is
enqueued with its sample count credited to `audio_queue_samples`; a
frame ending strictly before `skip` is freed; otherwise the frame
straddles `skip` and is installed as `audio_out_frame` with
`audio_out_index = BPS * (int)((skip - start) * rate)`, a nonnegative
quantity in this branch, hence the `toNat`. -/
def decode_audio_skip (rate : Nat) (pts : Int) (timebase : ℚ) (f : Frame)
    (ms : MediaState) : MediaState :=
  let start : ℚ := pts * timebase
  let endT : ℚ := start + (f.nb_samples : ℚ) / (rate : ℚ)
  if ms.skip ≤ start then
    { ms with
      audio_queue_samples := ms.audio_queue_samples + f.nb_samples,
      audio_queue := ms.audio_queue ++ [f] }
  else if endT < ms.skip then
    ms
  else
    { ms with
      audio_out_frame := some f,
      audio_out_index := ((BPS : Int) * ctrunc ((ms.skip - start) * rate)).toNat }

/-- Modelled from the spec: the skip policy exactly as the claim words
it — enqueue when `start ≥ skip`, discard when `end ≤ skip`, otherwise
straddle with `audio_out_index = BPS * floor((skip - start) * rate)`.
Written from the claim, for comparison with `decode_audio_skip`. -/
def decode_audio_skip_claim_version (rate : Nat) (pts : Int) (timebase : ℚ)
    (f : Frame) (ms : MediaState) : MediaState :=
  let start : ℚ := pts * timebase
  let endT : ℚ := start + (f.nb_samples : ℚ) / (rate : ℚ)
  if ms.skip ≤ start then
    { ms with
      audio_queue_samples := ms.audio_queue_samples + f.nb_samples,
      audio_queue := ms.audio_queue ++ [f] }
  else if endT ≤ ms.skip then
    ms
  else
    { ms with
      audio_out_frame := some f,
      audio_out_index := ((BPS : Int) * ⌊(ms.skip - start) * rate⌋).toNat }

/-- The claim amended at its boundary: a frame ending exactly at `skip`
is not discarded but takes the straddle branch (`end < skip` discards,
not `end ≤ skip`).  Otherwise identical to the claim. -/
def decode_audio_skip_amended (rate : Nat) (pts : Int) (timebase : ℚ)
    (f : Frame) (ms : MediaState) : MediaState :=
  let start : ℚ := pts * timebase
  let endT : ℚ := start + (f.nb_samples : ℚ) / (rate : ℚ)
  if ms.skip ≤ start then
    { ms with
      audio_queue_samples := ms.audio_queue_samples + f.nb_samples,
      audio_queue := ms.audio_queue ++ [f] }
  else if endT < ms.skip then
    ms
  else
    { ms with
      audio_out_frame := some f,
      audio_out_index := ((BPS : Int) * ⌊(ms.skip - start) * rate⌋).toNat }

/-- A convenient concrete state: ready, started, all queues empty,
skip set to `sk`, every counter zero. -/
def baseState (sk : ℚ) : MediaState :=
  ⟨true, false, false, true, false, 0, sk, [], none, 0, 0, 0, 0⟩

/-- Counterexample for C2: with `skip = 1`, a frame with `start = 0` and
`end = 1` ends exactly at `skip`; the claim says it is discarded, but
the code (`end < skip` at ffmedia.c line 448) takes the straddle branch
and installs it as `audio_out_frame`. -/
theorem decode_audio_skip_boundary_cex :
    (decode_audio_skip 44100 0 1 ⟨44100, []⟩ (baseState 1)).audio_out_frame
        = some ⟨44100, []⟩ ∧
    decode_audio_skip_claim_version 44100 0 1 ⟨44100, []⟩ (baseState 1)
        = baseState 1 ∧
    decode_audio_skip 44100 0 1 ⟨44100, []⟩ (baseState 1)
        ≠ decode_audio_skip_claim_version 44100 0 1 ⟨44100, []⟩ (baseState 1) := by
  have h1 : (decode_audio_skip 44100 0 1 ⟨44100, []⟩ (baseState 1)).audio_out_frame
      = some ⟨44100, []⟩ := by
    unfold decode_audio_skip baseState
    norm_num
  have h2 : decode_audio_skip_claim_version 44100 0 1 ⟨44100, []⟩ (baseState 1)
      = baseState 1 := by
    unfold decode_audio_skip_claim_version baseState
    norm_num
  refine ⟨h1, h2, fun heq => ?_⟩
  rw [heq, h2] at h1
  simp [baseState] at h1

/-- C2 (amended): the skip policy of `decode_audio` agrees everywhere
with the claim once its discard condition is tightened from
`end ≤ skip` to `end < skip`: `start ≥ skip` enqueues the frame and
credits `audio_queue_samples`, `end < skip` discards, and otherwise the
frame is installed as `audio_out_frame` (not enqueued) with
`audio_out_index = BPS * floor((skip - start) * rate)`. -/
theorem decode_audio_skip_amended_correct (rate : Nat) (pts : Int)
    (timebase : ℚ) (f : Frame) (ms : MediaState) :
    decode_audio_skip rate pts timebase f ms
      = decode_audio_skip_amended rate pts timebase f ms := by
  unfold decode_audio_skip decode_audio_skip_amended
  by_cases h1 : ms.skip ≤ (pts : ℚ) * timebase
  · simp [h1]
  · by_cases h2 : (pts : ℚ) * timebase + (f.nb_samples : ℚ) / (rate : ℚ) < ms.skip
    · simp [h1, h2]
    · have hpos : (0 : ℚ) ≤ (ms.skip - (pts : ℚ) * timebase) * (rate : ℚ) := by
        have : (pts : ℚ) * timebase < ms.skip := lt_of_not_le h1
        have hs : (0 : ℚ) ≤ ms.skip - (pts : ℚ) * timebase := by linarith
        positivity
      simp [h1, h2, ctrunc_eq_floor hpos]

/-! ## The pull path: media_read_audio (claims C1, C3, C7) -/

/-- The unconsumed remainder of `audio_out_frame`, in samples:
`nb_samples - audio_out_index / BPS` when a frame is installed, else 0. -/
def outRemainder (ms : MediaState) : Int :=
  match ms.audio_out_frame with
  | some f => (f.nb_samples : Int) - ((ms.audio_out_index / BPS : Nat) : Int)
  | none => 0

/-- P4, queue accounting: `audio_queue_samples` equals the sum of
`nb_samples` over the frames resident in the PCM queue plus the
unconsumed remainder of `audio_out_frame`. -/
def queueAccounting (ms : MediaState) : Prop :=
  ms.audio_queue_samples
    = ((ms.audio_queue.map Frame.nb_samples).sum : Int) + outRemainder ms

instance (ms : MediaState) : Decidable (queueAccounting ms) := by
  unfold queueAccounting
  infer_instance

/-- Entity invariant 2 of the spec: the byte index into
`audio_out_frame` never exceeds the byte size of the frame. -/
def outIndexLe (ms : MediaState) : Prop :=
  match ms.audio_out_frame with
  | some f => ms.audio_out_index ≤ BPS * f.nb_samples
  | none => True

instance (ms : MediaState) : Decidable (outIndexLe ms) := by
  unfold outIndexLe
  cases ms.audio_out_frame <;> infer_instance

/-- Well-formedness of the installed output frame: it carries exactly
`BPS * nb_samples` payload bytes. -/
def outFrameWF (ms : MediaState) : Prop :=
  match ms.audio_out_frame with
  | some f => frameWF f
  | none => True

instance (ms : MediaState) : Decidable (outFrameWF ms) := by
  unfold outFrameWF
  cases ms.audio_out_frame <;> (unfold frameWF; infer_instance)

/-- Well-formedness of the audio state: every queued frame and the
installed output frame carry exactly `BPS * nb_samples` payload bytes,
and the output index is within the installed frame. -/
def stateWF (ms : MediaState) : Prop :=
  (∀ f ∈ ms.audio_queue, frameWF f) ∧ outFrameWF ms ∧ outIndexLe ms

instance (ms : MediaState) : Decidable (stateWF ms) := by
  unfold stateWF frameWF
  infer_instance

/-- The fill loop of `media_read_audio` (ffmedia.c lines 672-709), one
fuel unit per C loop iteration.  Per iteration: if no output frame is
installed, dequeue one (resetting the index); if there is still none,
stop.  Copy `count = min(len, avail)` bytes out of the frame payload at
the current index, advance the index, account the consumed samples, and
free the frame when it is fully consumed.  `acc` is the contents of the
caller buffer so far, `rv` the running byte count.  The fuel computed by
`media_read_audio` strictly dominates the number of C iterations (each
iteration consumes request bytes, dequeues a frame, or frees the
installed frame), so the fuel-exhausted branch is never taken from
there. -/
def fillLoop : Nat → MediaState → List Nat → Nat → Nat → MediaState × List Nat × Nat
  | 0, ms, acc, rv, _len => (ms, acc, rv)
  | fuel + 1, ms, acc, rv, len =>
    if len = 0 then (ms, acc, rv)
    else
      let ms0 :=
        match ms.audio_out_frame with
        | some _ => ms
        | none =>
          match ms.audio_queue with
          | [] => { ms with audio_out_frame := none, audio_out_index := 0 }
          | f :: rest =>
            { ms with audio_queue := rest, audio_out_frame := some f,
                      audio_out_index := 0 }
      match ms0.audio_out_frame with
      | none => (ms0, acc, rv)
      | some f =>
        let avail := f.nb_samples * BPS - ms0.audio_out_index
        let count := if avail < len then avail else len
        let copied := (f.pdata.drop ms0.audio_out_index).take count
        let ms1 := { ms0 with
          audio_out_index := ms0.audio_out_index + count,
          audio_read_samples := ms0.audio_read_samples + count / BPS,
          audio_queue_samples :=
            ms0.audio_queue_samples - ((count / BPS : Nat) : Int) }
        let ms2 :=
          if f.nb_samples * BPS ≤ ms1.audio_out_index then
            { ms1 with audio_out_frame := none, audio_out_index := 0 }
          else ms1
        fillLoop fuel ms2 (acc ++ copied) (rv + count) (len - count)

/-- Model of `media_read_audio` (ffmedia.c lines 649-720).  The entry
`while (!ms->ready) SDL_CondWait(...)` only blocks and changes no state,
so the transform below is the body once `ready` holds.  Line 658 is the
stray `ms->audio_duration = 0;` of the source, which makes the duration
clamp of lines 660-670 dead code (because of that, the wrap-around of
the C unsigned subtraction `duration - read_samples` is immaterial and
it is modelled with truncating Nat subtraction).  Returns the new state,
the bytes written to the caller buffer, and the returned count `rv`.
If any bytes were produced, `needs_decode` is set and the condition
variable broadcast. -/
def media_read_audio (ms : MediaState) (len : Nat) : MediaState × List Nat × Nat :=
  let msA := { ms with audio_duration := 0 }
  let clamped :=
    if msA.audio_duration ≠ 0 then
      let remaining := (msA.audio_duration - msA.audio_read_samples) * BPS
      let len2 := if remaining < len then remaining else len
      let msB := if remaining = 0 then { msA with audio_finished := true } else msA
      (msB, len2)
    else (msA, len)
  let r := fillLoop (clamped.2 + 2 * clamped.1.audio_queue.length + 2)
    clamped.1 [] 0 clamped.2
  let msC :=
    if r.2.2 ≠ 0 then
      { r.1 with needs_decode := true, broadcasts := r.1.broadcasts + 1 }
    else r.1
  (msC, r.2.1, r.2.2)

/-- The fields of `MediaState` that the fill loop never writes, bundled
so that frame conditions are single equalities. -/
def controlFields (ms : MediaState) :
    Bool × Bool × Nat × Bool × Bool × Bool × Nat × ℚ :=
  (ms.ready, ms.needs_decode, ms.broadcasts, ms.quit, ms.started,
    ms.audio_finished, ms.audio_duration, ms.skip)

theorem fillLoop_controlFields : ∀ (fuel : Nat) (ms : MediaState)
    (acc : List Nat) (rv len : Nat),
    controlFields (fillLoop fuel ms acc rv len).1 = controlFields ms := by
  intro fuel
  induction fuel with
  | zero => intro ms acc rv len; rfl
  | succ n ih =>
    intro ms acc rv len
    rw [fillLoop]
    by_cases hlen : len = 0
    · simp [hlen]
    · simp only [if_neg hlen]
      cases hout : ms.audio_out_frame with
      | some f =>
        simp only
        split
        · rename_i hnone
          simp [hout] at hnone
        · rename_i g hsome
          rw [hout] at hsome
          injection hsome with hfg
          subst hfg
          rw [ih]
          split <;> split <;> rfl
      | none =>
        cases hq : ms.audio_queue with
        | nil => simp; rfl
        | cons f rest =>
          simp only
          rw [ih]
          split <;> split <;> rfl

theorem fillLoop_zero (ms : MediaState) (acc : List Nat) (rv len : Nat) :
    fillLoop 0 ms acc rv len = (ms, acc, rv) := rfl

theorem fillLoop_len0 (n : Nat) (ms : MediaState) (acc : List Nat) (rv : Nat) :
    fillLoop (n + 1) ms acc rv 0 = (ms, acc, rv) := by
  rw [fillLoop]
  simp

theorem fillLoop_break (n : Nat) (ms : MediaState) (acc : List Nat) (rv len : Nat)
    (hlen : len ≠ 0) (hout : ms.audio_out_frame = none) (hq : ms.audio_queue = []) :
    fillLoop (n + 1) ms acc rv len =
      ({ ms with audio_out_frame := none, audio_out_index := 0 }, acc, rv) := by
  rw [fillLoop, if_neg hlen, hout, hq]

theorem fillLoop_deq (n : Nat) (ms : MediaState) (acc : List Nat) (rv len : Nat)
    (f : Frame) (rest : List Frame) (C : Nat)
    (hlen : len ≠ 0) (hout : ms.audio_out_frame = none)
    (hq : ms.audio_queue = f :: rest)
    (hC : C = if f.nb_samples * BPS - 0 < len then f.nb_samples * BPS - 0 else len) :
    fillLoop (n + 1) ms acc rv len =
      fillLoop n
        (if f.nb_samples * BPS ≤ 0 + C then
          { ms with
              audio_queue := rest,
              audio_out_frame := none,
              audio_out_index := 0,
              audio_read_samples := ms.audio_read_samples + C / BPS,
              audio_queue_samples := ms.audio_queue_samples - ((C / BPS : Nat) : Int) }
        else
          { ms with
              audio_queue := rest,
              audio_out_frame := some f,
              audio_out_index := 0 + C,
              audio_read_samples := ms.audio_read_samples + C / BPS,
              audio_queue_samples := ms.audio_queue_samples - ((C / BPS : Nat) : Int) })
        (acc ++ (f.pdata.drop 0).take C) (rv + C) (len - C) := by
  subst hC
  rw [fillLoop, if_neg hlen, hout, hq]

theorem fillLoop_copy (n : Nat) (ms : MediaState) (acc : List Nat) (rv len : Nat)
    (f : Frame) (C : Nat)
    (hlen : len ≠ 0) (hout : ms.audio_out_frame = some f)
    (hC : C = if f.nb_samples * BPS - ms.audio_out_index < len then
      f.nb_samples * BPS - ms.audio_out_index else len) :
    fillLoop (n + 1) ms acc rv len =
      fillLoop n
        (if f.nb_samples * BPS ≤ ms.audio_out_index + C then
          { ms with
              audio_out_frame := none,
              audio_out_index := 0,
              audio_read_samples := ms.audio_read_samples + C / BPS,
              audio_queue_samples := ms.audio_queue_samples - ((C / BPS : Nat) : Int) }
        else
          { ms with
              audio_out_index := ms.audio_out_index + C,
              audio_read_samples := ms.audio_read_samples + C / BPS,
              audio_queue_samples := ms.audio_queue_samples - ((C / BPS : Nat) : Int) })
        (acc ++ (f.pdata.drop ms.audio_out_index).take C) (rv + C) (len - C) := by
  subst hC
  rw [fillLoop, if_neg hlen]
  simp only [hout]

theorem outFrameWF_mk (ms : MediaState) (f : Frame)
    (hout : ms.audio_out_frame = some f) (h : frameWF f) : outFrameWF ms := by
  unfold outFrameWF
  rw [hout]
  exact h

theorem outFrameWF_elim (ms : MediaState) (f : Frame)
    (hout : ms.audio_out_frame = some f) (h : outFrameWF ms) : frameWF f := by
  unfold outFrameWF at h
  rw [hout] at h
  exact h

theorem outIndexLe_mk (ms : MediaState) (f : Frame)
    (hout : ms.audio_out_frame = some f)
    (h : ms.audio_out_index ≤ BPS * f.nb_samples) : outIndexLe ms := by
  unfold outIndexLe
  rw [hout]
  exact h

theorem outIndexLe_elim (ms : MediaState) (f : Frame)
    (hout : ms.audio_out_frame = some f) (h : outIndexLe ms) :
    ms.audio_out_index ≤ BPS * f.nb_samples := by
  unfold outIndexLe at h
  rw [hout] at h
  exact h

theorem take_drop_length (l : List Nat) (i c : Nat) (hl : i + c ≤ l.length) :
    ((l.drop i).take c).length = c := by
  simp only [List.length_take, List.length_drop]
  omega

theorem fillLoop_copies : ∀ (fuel : Nat) (ms : MediaState) (acc : List Nat)
    (rv len : Nat), stateWF ms →
    ∃ δ : List Nat,
      (fillLoop fuel ms acc rv len).2.1 = acc ++ δ ∧
      (fillLoop fuel ms acc rv len).2.2 = rv + δ.length ∧
      δ.length ≤ len ∧
      stateWF (fillLoop fuel ms acc rv len).1 := by
  intro fuel
  induction fuel with
  | zero =>
    intro ms acc rv len hwf
    rw [fillLoop_zero]
    exact ⟨[], by simp, by simp, by simp, hwf⟩
  | succ n ih =>
    intro ms acc rv len hwf
    by_cases hlen : len = 0
    · subst hlen
      rw [fillLoop_len0]
      exact ⟨[], by simp, by simp, by simp, hwf⟩
    · cases hout : ms.audio_out_frame with
      | none =>
        cases hq : ms.audio_queue with
        | nil =>
          rw [fillLoop_break n ms acc rv len hlen hout hq]
          exact ⟨[], by simp, by simp, by simp, hwf.1, True.intro, True.intro⟩
        | cons f rest =>
          have hfwf : frameWF f :=
            hwf.1 f (by rw [hq]; exact List.mem_cons_self f rest)
          have hrest : ∀ g ∈ rest, frameWF g := fun g hg =>
            hwf.1 g (by rw [hq]; exact List.mem_cons_of_mem f hg)
          have hplen : f.pdata.length = BPS * f.nb_samples := hfwf
          rw [fillLoop_deq n ms acc rv len f rest _ hlen hout hq rfl]
          by_cases hc : f.nb_samples * BPS - 0 < len
          · simp only [if_pos hc]
            have hfree : f.nb_samples * BPS ≤ 0 + (f.nb_samples * BPS - 0) := by
              omega
            rw [if_pos hfree]
            obtain ⟨δ2, e1, e2, e3, e4⟩ :=
              ih { ms with
                    audio_queue := rest,
                    audio_out_frame := none,
                    audio_out_index := 0,
                    audio_read_samples :=
                      ms.audio_read_samples + (f.nb_samples * BPS - 0) / BPS,
                    audio_queue_samples := ms.audio_queue_samples
                      - (((f.nb_samples * BPS - 0) / BPS : Nat) : Int) }
                (acc ++ (f.pdata.drop 0).take (f.nb_samples * BPS - 0))
                (rv + (f.nb_samples * BPS - 0))
                (len - (f.nb_samples * BPS - 0))
                ⟨hrest, True.intro, True.intro⟩
            have hcop := take_drop_length f.pdata 0 (f.nb_samples * BPS - 0)
              (by simp only [BPS] at hplen ⊢; omega)
            refine ⟨(f.pdata.drop 0).take (f.nb_samples * BPS - 0) ++ δ2,
              e1.trans (List.append_assoc _ _ _), e2.trans ?_, ?_, e4⟩
            · rw [List.length_append, hcop]
              omega
            · rw [List.length_append, hcop]
              omega
          · simp only [if_neg hc]
            by_cases hfree : f.nb_samples * BPS ≤ 0 + len
            · rw [if_pos hfree]
              obtain ⟨δ2, e1, e2, e3, e4⟩ :=
                ih { ms with
                      audio_queue := rest,
                      audio_out_frame := none,
                      audio_out_index := 0,
                      audio_read_samples := ms.audio_read_samples + len / BPS,
                      audio_queue_samples := ms.audio_queue_samples
                        - ((len / BPS : Nat) : Int) }
                  (acc ++ (f.pdata.drop 0).take len) (rv + len) (len - len)
                  ⟨hrest, True.intro, True.intro⟩
              have hcop := take_drop_length f.pdata 0 len
                (by simp only [BPS] at hplen hc ⊢; omega)
              refine ⟨(f.pdata.drop 0).take len ++ δ2,
                e1.trans (List.append_assoc _ _ _), e2.trans ?_, ?_, e4⟩
              · rw [List.length_append, hcop]
                omega
              · rw [List.length_append, hcop]
                omega
            · rw [if_neg hfree]
              obtain ⟨δ2, e1, e2, e3, e4⟩ :=
                ih { ms with
                      audio_queue := rest,
                      audio_out_frame := some f,
                      audio_out_index := 0 + len,
                      audio_read_samples := ms.audio_read_samples + len / BPS,
                      audio_queue_samples := ms.audio_queue_samples
                        - ((len / BPS : Nat) : Int) }
                  (acc ++ (f.pdata.drop 0).take len) (rv + len) (len - len)
                  ⟨hrest, outFrameWF_mk _ f rfl hfwf,
                    outIndexLe_mk _ f rfl
                      (by simp only [BPS] at hfree ⊢; omega)⟩
              have hcop := take_drop_length f.pdata 0 len
                (by simp only [BPS] at hplen hc ⊢; omega)
              refine ⟨(f.pdata.drop 0).take len ++ δ2,
                e1.trans (List.append_assoc _ _ _), e2.trans ?_, ?_, e4⟩
              · rw [List.length_append, hcop]
                omega
              · rw [List.length_append, hcop]
                omega
      | some f =>
        have hfwf : frameWF f := outFrameWF_elim ms f hout hwf.2.1
        have hplen : f.pdata.length = BPS * f.nb_samples := hfwf
        have hidx : ms.audio_out_index ≤ BPS * f.nb_samples :=
          outIndexLe_elim ms f hout hwf.2.2
        rw [fillLoop_copy n ms acc rv len f _ hlen hout rfl]
        by_cases hc : f.nb_samples * BPS - ms.audio_out_index < len
        · simp only [if_pos hc]
          have hfree : f.nb_samples * BPS ≤
              ms.audio_out_index + (f.nb_samples * BPS - ms.audio_out_index) := by
            simp only [BPS] at hidx ⊢
            omega
          rw [if_pos hfree]
          obtain ⟨δ2, e1, e2, e3, e4⟩ :=
            ih { ms with
                  audio_out_frame := none,
                  audio_out_index := 0,
                  audio_read_samples := ms.audio_read_samples
                    + (f.nb_samples * BPS - ms.audio_out_index) / BPS,
                  audio_queue_samples := ms.audio_queue_samples
                    - (((f.nb_samples * BPS - ms.audio_out_index) / BPS : Nat) : Int) }
              (acc ++ (f.pdata.drop ms.audio_out_index).take
                (f.nb_samples * BPS - ms.audio_out_index))
              (rv + (f.nb_samples * BPS - ms.audio_out_index))
              (len - (f.nb_samples * BPS - ms.audio_out_index))
              ⟨hwf.1, True.intro, True.intro⟩
          have hcop := take_drop_length f.pdata ms.audio_out_index
            (f.nb_samples * BPS - ms.audio_out_index)
            (by simp only [BPS] at hplen hidx ⊢; omega)
          refine ⟨(f.pdata.drop ms.audio_out_index).take
              (f.nb_samples * BPS - ms.audio_out_index) ++ δ2,
            e1.trans (List.append_assoc _ _ _), e2.trans ?_, ?_, e4⟩
          · rw [List.length_append, hcop]
            omega
          · rw [List.length_append, hcop]
            omega
        · simp only [if_neg hc]
          by_cases hfree : f.nb_samples * BPS ≤ ms.audio_out_index + len
          · rw [if_pos hfree]
            obtain ⟨δ2, e1, e2, e3, e4⟩ :=
              ih { ms with
                    audio_out_frame := none,
                    audio_out_index := 0,
                    audio_read_samples := ms.audio_read_samples + len / BPS,
                    audio_queue_samples := ms.audio_queue_samples
                      - ((len / BPS : Nat) : Int) }
                (acc ++ (f.pdata.drop ms.audio_out_index).take len)
                (rv + len) (len - len) ⟨hwf.1, True.intro, True.intro⟩
            have hcop := take_drop_length f.pdata ms.audio_out_index len
              (by simp only [BPS] at hplen hidx hc ⊢; omega)
            refine ⟨(f.pdata.drop ms.audio_out_index).take len ++ δ2,
              e1.trans (List.append_assoc _ _ _), e2.trans ?_, ?_, e4⟩
            · rw [List.length_append, hcop]
              omega
            · rw [List.length_append, hcop]
              omega
          · rw [if_neg hfree]
            obtain ⟨δ2, e1, e2, e3, e4⟩ :=
              ih { ms with
                    audio_out_index := ms.audio_out_index + len,
                    audio_read_samples := ms.audio_read_samples + len / BPS,
                    audio_queue_samples := ms.audio_queue_samples
                      - ((len / BPS : Nat) : Int) }
                (acc ++ (f.pdata.drop ms.audio_out_index).take len)
                (rv + len) (len - len)
                ⟨hwf.1, outFrameWF_mk _ f hout hfwf,
                  outIndexLe_mk _ f hout
                    (by simp only [BPS] at hfree ⊢; omega)⟩
            have hcop := take_drop_length f.pdata ms.audio_out_index len
              (by simp only [BPS] at hplen hidx hc ⊢; omega)
            refine ⟨(f.pdata.drop ms.audio_out_index).take len ++ δ2,
              e1.trans (List.append_assoc _ _ _), e2.trans ?_, ?_, e4⟩
            · rw [List.length_append, hcop]
              omega
            · rw [List.length_append, hcop]
              omega

theorem outRemainder_none (ms : MediaState) (hout : ms.audio_out_frame = none) :
    outRemainder ms = 0 := by
  unfold outRemainder
  rw [hout]

theorem outRemainder_some (ms : MediaState) (f : Frame)
    (hout : ms.audio_out_frame = some f) :
    outRemainder ms = (f.nb_samples : Int) - ((ms.audio_out_index / BPS : Nat) : Int) := by
  unfold outRemainder
  rw [hout]

theorem fillLoop_accounting : ∀ (fuel : Nat) (ms : MediaState) (acc : List Nat)
    (rv len : Nat), queueAccounting ms → BPS ∣ len → BPS ∣ ms.audio_out_index →
    outIndexLe ms →
    queueAccounting (fillLoop fuel ms acc rv len).1 ∧
    BPS ∣ (fillLoop fuel ms acc rv len).1.audio_out_index ∧
    outIndexLe (fillLoop fuel ms acc rv len).1 := by
  intro fuel
  induction fuel with
  | zero =>
    intro ms acc rv len hacc hdl hdi hle
    rw [fillLoop_zero]
    exact ⟨hacc, hdi, hle⟩
  | succ n ih =>
    intro ms acc rv len hacc hdl hdi hle
    by_cases hlen : len = 0
    · subst hlen
      rw [fillLoop_len0]
      exact ⟨hacc, hdi, hle⟩
    · cases hout : ms.audio_out_frame with
      | none =>
        cases hq : ms.audio_queue with
        | nil =>
          rw [fillLoop_break n ms acc rv len hlen hout hq]
          refine ⟨?_, ⟨0, rfl⟩, True.intro⟩
          unfold queueAccounting at hacc ⊢
          rw [outRemainder_none ms hout] at hacc
          rw [outRemainder_none _ rfl]
          exact hacc
        | cons f rest =>
          unfold queueAccounting at hacc
          rw [outRemainder_none ms hout, hq] at hacc
          simp only [List.map_cons, List.sum_cons] at hacc
          rw [fillLoop_deq n ms acc rv len f rest _ hlen hout hq rfl]
          by_cases hc : f.nb_samples * BPS - 0 < len
          · simp only [if_pos hc]
            have hfree : f.nb_samples * BPS ≤ 0 + (f.nb_samples * BPS - 0) := by
              omega
            rw [if_pos hfree]
            refine ih _ _ _ _ ?_ ?_ ⟨0, rfl⟩ True.intro
            · unfold queueAccounting
              rw [outRemainder_none _ rfl]
              simp only
              push_cast at hacc ⊢
              simp only [BPS] at *
              omega
            · simp only [BPS] at *
              omega
          · simp only [if_neg hc]
            by_cases hfree : f.nb_samples * BPS ≤ 0 + len
            · rw [if_pos hfree]
              refine ih _ _ _ _ ?_ ?_ ⟨0, rfl⟩ True.intro
              · unfold queueAccounting
                rw [outRemainder_none _ rfl]
                simp only
                push_cast at hacc ⊢
                simp only [BPS] at *
                omega
              · simp only [BPS] at *
                omega
            · rw [if_neg hfree]
              refine ih _ _ _ _ ?_ ?_ ?_ ?_
              · unfold queueAccounting
                rw [outRemainder_some _ f rfl]
                simp only
                push_cast at hacc ⊢
                simp only [BPS] at *
                omega
              · simp only [BPS] at *
                omega
              · show BPS ∣ 0 + len
                simp only [BPS] at *
                omega
              · exact outIndexLe_mk _ f rfl (by simp only [BPS] at *; omega)
      | some f =>
        unfold queueAccounting at hacc
        rw [outRemainder_some ms f hout] at hacc
        have hidx : ms.audio_out_index ≤ BPS * f.nb_samples :=
          outIndexLe_elim ms f hout hle
        rw [fillLoop_copy n ms acc rv len f _ hlen hout rfl]
        by_cases hc : f.nb_samples * BPS - ms.audio_out_index < len
        · simp only [if_pos hc]
          have hfree : f.nb_samples * BPS ≤
              ms.audio_out_index + (f.nb_samples * BPS - ms.audio_out_index) := by
            simp only [BPS] at *
            omega
          rw [if_pos hfree]
          refine ih _ _ _ _ ?_ ?_ ⟨0, rfl⟩ True.intro
          · unfold queueAccounting
            rw [outRemainder_none _ rfl]
            simp only
            push_cast at hacc ⊢
            simp only [BPS] at *
            omega
          · simp only [BPS] at *
            omega
        · simp only [if_neg hc]
          by_cases hfree : f.nb_samples * BPS ≤ ms.audio_out_index + len
          · rw [if_pos hfree]
            refine ih _ _ _ _ ?_ ?_ ⟨0, rfl⟩ True.intro
            · unfold queueAccounting
              rw [outRemainder_none _ rfl]
              simp only
              push_cast at hacc ⊢
              simp only [BPS] at *
              omega
            · simp only [BPS] at *
              omega
          · rw [if_neg hfree]
            refine ih _ _ _ _ ?_ ?_ ?_ ?_
            · unfold queueAccounting outRemainder
              simp only [hout]
              push_cast at hacc ⊢
              simp only [BPS] at *
              omega
            · simp only [BPS] at *
              omega
            · show BPS ∣ ms.audio_out_index + len
              simp only [BPS] at *
              omega
            · exact outIndexLe_mk _ f hout (by simp only [BPS] at *; omega)

theorem media_read_audio_eq (ms : MediaState) (len : Nat) :
    media_read_audio ms len =
      ((if (fillLoop (len + 2 * ms.audio_queue.length + 2)
            { ms with audio_duration := 0 } [] 0 len).2.2 ≠ 0 then
          { (fillLoop (len + 2 * ms.audio_queue.length + 2)
              { ms with audio_duration := 0 } [] 0 len).1 with
              needs_decode := true,
              broadcasts := (fillLoop (len + 2 * ms.audio_queue.length + 2)
                { ms with audio_duration := 0 } [] 0 len).1.broadcasts + 1 }
        else (fillLoop (len + 2 * ms.audio_queue.length + 2)
            { ms with audio_duration := 0 } [] 0 len).1),
       (fillLoop (len + 2 * ms.audio_queue.length + 2)
          { ms with audio_duration := 0 } [] 0 len).2.1,
       (fillLoop (len + 2 * ms.audio_queue.length + 2)
          { ms with audio_duration := 0 } [] 0 len).2.2) := rfl

/-- C7: every `pull` (`media_read_audio`) with requested byte length
`len` returns `rv` with `0 ≤ rv ≤ len` (`rv : Nat` here, `len ≥ 0` being
the C precondition for a buffer length) equal to the number of bytes
actually copied into the caller buffer; and `rv > 0` holds exactly
when the call set `needs_decode` and broadcast the condition variable,
while a call returning 0 leaves `needs_decode` and the broadcast count
unchanged. -/
theorem media_read_audio_correct (ms : MediaState) (len : Nat)
    (hwf : stateWF ms) :
    (media_read_audio ms len).2.2 = (media_read_audio ms len).2.1.length ∧
    (media_read_audio ms len).2.2 ≤ len ∧
    (0 < (media_read_audio ms len).2.2 ↔
      ((media_read_audio ms len).1.needs_decode = true ∧
        (media_read_audio ms len).1.broadcasts = ms.broadcasts + 1)) ∧
    ((media_read_audio ms len).2.2 = 0 →
      (media_read_audio ms len).1.needs_decode = ms.needs_decode ∧
      (media_read_audio ms len).1.broadcasts = ms.broadcasts) := by
  rw [media_read_audio_eq]
  obtain ⟨δ, e1, e2, e3, e4⟩ := fillLoop_copies
    (len + 2 * ms.audio_queue.length + 2) { ms with audio_duration := 0 }
    [] 0 len ⟨hwf.1, hwf.2.1, hwf.2.2⟩
  have hcf := fillLoop_controlFields (len + 2 * ms.audio_queue.length + 2)
    { ms with audio_duration := 0 } [] 0 len
  have hneeds : (fillLoop (len + 2 * ms.audio_queue.length + 2)
      { ms with audio_duration := 0 } [] 0 len).1.needs_decode
      = ms.needs_decode := congrArg (fun t => t.2.1) hcf
  have hbc : (fillLoop (len + 2 * ms.audio_queue.length + 2)
      { ms with audio_duration := 0 } [] 0 len).1.broadcasts
      = ms.broadcasts := congrArg (fun t => t.2.2.1) hcf
  by_cases hz : (fillLoop (len + 2 * ms.audio_queue.length + 2)
      { ms with audio_duration := 0 } [] 0 len).2.2 = 0
  · simp only [hz, ne_eq, not_true_eq_false, if_false]
    refine ⟨?_, by omega, ?_, fun _ => ⟨hneeds, hbc⟩⟩
    · rw [e1]
      simp only [List.nil_append]
      omega
    · constructor
      · intro h
        omega
      · intro ⟨h1, h2⟩
        rw [hbc] at h2
        omega
  · simp only [ne_eq, hz, not_false_eq_true, if_true]
    refine ⟨?_, ?_, ?_, fun h => h.elim⟩
    · rw [e1]
      simp only [List.nil_append]
      omega
    · omega
    · constructor
      · intro h
        refine ⟨?_, ?_⟩
        · simp
        · show (fillLoop (len + 2 * ms.audio_queue.length + 2)
            { ms with audio_duration := 0 } [] 0 len).1.broadcasts + 1
            = ms.broadcasts + 1
          rw [hbc]
      · intro h
        omega

/-- Witness for C7 at a ready state holding a single well-formed
one-sample frame, pulled with a 4-byte request. -/
theorem media_read_audio_correct_witness :
    stateWF { baseState 0 with
      audio_queue := [⟨1, [5, 6, 7, 8]⟩], audio_queue_samples := 1 } ∧
    (media_read_audio { baseState 0 with
      audio_queue := [⟨1, [5, 6, 7, 8]⟩], audio_queue_samples := 1 } 4).2.2 =
    (media_read_audio { baseState 0 with
      audio_queue := [⟨1, [5, 6, 7, 8]⟩], audio_queue_samples := 1 } 4).2.1.length :=
  ⟨by decide,
    (media_read_audio_correct { baseState 0 with
      audio_queue := [⟨1, [5, 6, 7, 8]⟩], audio_queue_samples := 1 } 4
      (by decide)).1⟩

/-- Counterexample for C3: from a state satisfying the queue-accounting
invariant (rate 2, skip 1/2, empty queue), a frame with `start = 0`,
`end = 1` strictly straddles `skip`; the straddle branch installs it as
`audio_out_frame` with `audio_out_index = 4` but never credits its
remaining sample to `audio_queue_samples`, so the invariant is broken
afterwards. -/
theorem queue_accounting_straddle_cex :
    queueAccounting (baseState (1 / 2)) ∧
    ¬ queueAccounting
        (decode_audio_skip 2 0 1 ⟨2, [0, 0, 0, 0, 0, 0, 0, 0]⟩ (baseState (1 / 2))) := by
  have hs : decode_audio_skip 2 0 1 ⟨2, [0, 0, 0, 0, 0, 0, 0, 0]⟩ (baseState (1 / 2))
      = { baseState (1 / 2) with
          audio_out_frame := some ⟨2, [0, 0, 0, 0, 0, 0, 0, 0]⟩,
          audio_out_index := 4 } := by
    unfold decode_audio_skip baseState ctrunc
    norm_num
    rfl
  refine ⟨by decide, ?_⟩
  rw [hs]
  decide

/-- C3 (amended): the queue-accounting invariant P4 is preserved by the
enqueue and discard branches of the skip policy of `decode_audio`, and
by a whole `media_read_audio` call whenever the request length and the
current output index are sample-aligned (multiples of BPS) and the
output index is in bounds; the straddle branch of `decode_audio`
violates it (see the counterexample), as can byte requests that are not
a multiple of BPS. -/
theorem queue_accounting_preserved :
    (∀ (rate : Nat) (pts : Int) (timebase : ℚ) (f : Frame) (ms : MediaState),
      queueAccounting ms →
      (ms.skip ≤ (pts : ℚ) * timebase ∨
        (pts : ℚ) * timebase + (f.nb_samples : ℚ) / (rate : ℚ) < ms.skip) →
      queueAccounting (decode_audio_skip rate pts timebase f ms)) ∧
    (∀ (ms : MediaState) (len : Nat), queueAccounting ms → BPS ∣ len →
      BPS ∣ ms.audio_out_index → outIndexLe ms →
      queueAccounting (media_read_audio ms len).1) := by
  constructor
  · intro rate pts timebase f ms hacc hcase
    unfold decode_audio_skip
    rcases hcase with h1 | h2
    · rw [if_pos h1]
      unfold queueAccounting at hacc ⊢
      have hR : outRemainder { ms with
          audio_queue_samples := ms.audio_queue_samples + (f.nb_samples : Int),
          audio_queue := ms.audio_queue ++ [f] } = outRemainder ms := rfl
      rw [hR]
      simp only [List.map_append, List.sum_append, List.map_cons, List.sum_cons,
        List.map_nil, List.sum_nil]
      push_cast at hacc ⊢
      omega
    · have hstart : ¬ ms.skip ≤ (pts : ℚ) * timebase := by
        have hnn : (0 : ℚ) ≤ (f.nb_samples : ℚ) / (rate : ℚ) := by positivity
        intro hle
        linarith
      rw [if_neg hstart, if_pos h2]
      exact hacc
  · intro ms len hacc hdl hdi hle
    rw [media_read_audio_eq]
    have h := fillLoop_accounting (len + 2 * ms.audio_queue.length + 2)
      { ms with audio_duration := 0 } [] 0 len hacc hdl hdi hle
    by_cases hz : (fillLoop (len + 2 * ms.audio_queue.length + 2)
        { ms with audio_duration := 0 } [] 0 len).2.2 = 0
    · simp only [hz, ne_eq, not_true_eq_false, if_false]
      exact h.1
    · simp only [ne_eq, hz, not_false_eq_true, if_true]
      exact h.1

/-- Witness for C3 at nontrivial concrete inputs: an enqueue step at
rate 44100 with `start = 2 ≥ skip = 1`, and a 4-byte pull from a
one-frame state. -/
theorem queue_accounting_preserved_witness :
    queueAccounting { baseState 1 with
      audio_queue := [⟨3, [0, 0, 0, 0, 0, 0, 0, 0, 0, 0, 0, 0]⟩],
      audio_queue_samples := 3 } ∧
    queueAccounting (decode_audio_skip 44100 2 1 ⟨5, []⟩
      { baseState 1 with
        audio_queue := [⟨3, [0, 0, 0, 0, 0, 0, 0, 0, 0, 0, 0, 0]⟩],
        audio_queue_samples := 3 }) ∧
    queueAccounting (media_read_audio { baseState 1 with
      audio_queue := [⟨3, [0, 0, 0, 0, 0, 0, 0, 0, 0, 0, 0, 0]⟩],
      audio_queue_samples := 3 } 4).1 :=
  ⟨by decide,
    (queue_accounting_preserved.1 44100 2 1 ⟨5, []⟩ _ (by decide)
      (Or.inl (by norm_num [baseState]))),
    (queue_accounting_preserved.2 _ 4 (by decide) ⟨1, rfl⟩ ⟨0, rfl⟩
      (by decide))⟩

/-- C1 is a code bug: ffmedia.c line 658 sets `ms->audio_duration = 0;`
unconditionally at the top of `media_read_audio`, so the duration clamp
of lines 660-670 is dead code.  At a state with `audio_duration = 2`
samples (8 bytes) and 4 queued samples, a 16-byte pull returns 16 bytes
— more than `audio_duration * BPS = 8` — instead of clamping to 8 and
latching `audio_finished`; the stored duration itself is destroyed
(left 0). -/
theorem media_read_audio_duration_clamp_dead :
    (media_read_audio { baseState 0 with
      audio_duration := 2,
      audio_queue := [⟨4, List.range 16⟩],
      audio_queue_samples := 4 } 16).2.2 = 16 ∧
    { baseState 0 with
      audio_duration := 2,
      audio_queue := [⟨4, List.range 16⟩],
      audio_queue_samples := 4 : MediaState }.audio_duration * BPS = 8 ∧
    (media_read_audio { baseState 0 with
      audio_duration := 2,
      audio_queue := [⟨4, List.range 16⟩],
      audio_queue_samples := 4 } 16).1.audio_duration = 0 ∧
    (media_read_audio { baseState 0 with
      audio_duration := 2,
      audio_queue := [⟨4, List.range 16⟩],
      audio_queue_samples := 4 } 16).1.audio_finished = false := by
  decide

/-! ## Duration inference in decode_thread (claim C5) -/

/-- Wrap to signed 64 bits (two-complement), modelling the overflowing
C multiply `((long long) ctx->duration) * audio_sample_rate`
(ffmedia.c line 583). -/
def i64wrap (x : Int) : Int := (x + 2 ^ 63) % 2 ^ 64 - 2 ^ 63

/-- The C cast `(unsigned int)`: reduction modulo `2^32` into
`[0, 2^32)` (ffmedia.c line 584). -/
def u32 (x : Int) : Int := x % 2 ^ 32

/-- The duration-inference block of `decode_thread` (ffmedia.c lines
579-591), reached when the container reports an exact (non-bitrate)
duration: multiply by the sample rate (64-bit, wrapping), divide by
`AV_TIME_BASE` (C division truncates toward zero, `Int.tdiv`), store
into the `unsigned int` field, then reject values outside
`(0, 3600 * rate]` — note `d < 0` is always false for the unsigned
field, exactly as `ms->audio_duration < 0` is in C, and the comparison
against `3600 * audio_sample_rate` equals the mathematical one for sane
rates (`0 < rate`, `3600 * rate < 2^31`). -/
def inferAudioDuration (rate : Int) (ctxDuration : Int) : Int :=
  let duration := i64wrap (ctxDuration * rate)
  let d := u32 (Int.tdiv duration AV_TIME_BASE)
  if d < 0 ∨ 3600 * rate < d then 0 else d

/-- C5: for every container duration value, the retained
`audio_duration` lies in `[0, 3600 * rate]`: every converted value
outside `(0, 3600 * rate]` is rejected (falls back to 0, the
play-until-EOF sentinel), and a converted value inside that interval is
stored as is.  In particular no negative and no
greater-than-3600-seconds sample count is ever retained. -/
theorem inferAudioDuration_bounds (rate ctxDuration : Int) (hrate : 0 < rate) :
    0 ≤ inferAudioDuration rate ctxDuration ∧
    inferAudioDuration rate ctxDuration ≤ 3600 * rate ∧
    (∀ d, d = u32 (Int.tdiv (i64wrap (ctxDuration * rate)) AV_TIME_BASE) →
      ((d ≤ 0 ∨ 3600 * rate < d) → inferAudioDuration rate ctxDuration = 0) ∧
      (0 < d → d ≤ 3600 * rate → inferAudioDuration rate ctxDuration = d)) := by
  unfold inferAudioDuration u32
  have hd0 : 0 ≤ Int.tdiv (i64wrap (ctxDuration * rate)) AV_TIME_BASE % 2 ^ 32 :=
    Int.emod_nonneg _ (by norm_num)
  by_cases hc : Int.tdiv (i64wrap (ctxDuration * rate)) AV_TIME_BASE % 2 ^ 32 < 0 ∨
      3600 * rate < Int.tdiv (i64wrap (ctxDuration * rate)) AV_TIME_BASE % 2 ^ 32
  · rw [if_pos hc]
    refine ⟨le_rfl, by positivity, ?_⟩
    intro d hd
    subst hd
    refine ⟨fun _ => rfl, fun h1 h2 => ?_⟩
    rcases hc with h | h
    · omega
    · omega
  · rw [if_neg hc]
    push_neg at hc
    refine ⟨hd0, hc.2, ?_⟩
    intro d hd
    subst hd
    refine ⟨?_, fun _ _ => rfl⟩
    rintro (h | h)
    · omega
    · omega

/-- Witness for C5 at rate 44100 and container duration 123456789
microseconds. -/
theorem inferAudioDuration_bounds_witness :
    0 ≤ inferAudioDuration 44100 123456789 ∧
    inferAudioDuration 44100 123456789 ≤ 3600 * 44100 :=
  ⟨(inferAudioDuration_bounds 44100 123456789 (by decide)).1,
    (inferAudioDuration_bounds 44100 123456789 (by decide)).2.1⟩

/-! ## The ready flag, media_close and media_start (claims C6, C8, C10) -/

/-- The guarded ready/broadcast block of `decode_thread`, appearing
twice (ffmedia.c lines 609-612 in the steady-state loop, lines 632-635
on the exit path): if `ready` is unset, set it and broadcast `cond`. -/
def ready_broadcast_block (ms : MediaState) : MediaState :=
  if ms.ready = false then
    { ms with ready := true, broadcasts := ms.broadcasts + 1 }
  else ms

/-- The lock-protected tail of each steady-state decode-loop iteration
(ffmedia.c lines 607-620): set `ready` if unset (broadcasting), wait on
`cond` unless `needs_decode` or `quit` (waiting changes no state), then
clear `needs_decode`. -/
def decode_loop_sync (ms : MediaState) : MediaState :=
  { ready_broadcast_block ms with needs_decode := false }

/-- The exit path of `decode_thread` (ffmedia.c lines 624-641): under
the lock, set `ready` if unset and broadcast, then wait on `cond` until
`quit` (waiting changes no state); deallocation follows once `quit`
holds. -/
def decode_thread_finish (ms : MediaState) : MediaState :=
  ready_broadcast_block ms

/-- The result of `media_close`: either the state was deallocated
directly, or only signalled. -/
inductive CloseResult where
  | freed
  | signaled (ms : MediaState)
deriving Repr, DecidableEq

/-- Model of `media_close` (ffmedia.c lines 768-781): a never-started
handle is deallocated directly; otherwise `quit` is set, `cond` is
broadcast, and the call returns at once — the decode thread performs
the deallocation. -/
def media_close (ms : MediaState) : CloseResult :=
  if ms.started = false then .freed
  else .signaled { ms with quit := true, broadcasts := ms.broadcasts + 1 }

/-- Model of `media_start` (ffmedia.c lines 722-732).  `threadCreated`
is the outcome of `SDL_CreateThread`: on success `started` is set (and
the thread detached); on failure nothing changes. -/
def media_start (threadCreated : Bool) (ms : MediaState) : MediaState :=
  if threadCreated then { ms with started := true } else ms

/-- C6: the `ready` flag is set at most once — the setting block is
guarded and a no-op once `ready` holds — and every set is accompanied
by a broadcast of the condition variable; the exit path of the decode
thread runs the same block, so after it `ready` always holds and a
blocked consumer has been broadcast to; and no other modelled operation
(`media_read_audio`, the skip policy, `media_start`, a signalling
`media_close`) ever changes `ready`, while the steady-state loop only
sets it. -/
theorem ready_flag_discipline :
    (∀ ms : MediaState, (ready_broadcast_block ms).ready = true) ∧
    (∀ ms : MediaState, ms.ready = true → ready_broadcast_block ms = ms) ∧
    (∀ ms : MediaState, ms.ready = false →
      (ready_broadcast_block ms).broadcasts = ms.broadcasts + 1) ∧
    (∀ ms : MediaState, (decode_thread_finish ms).ready = true ∧
      (ms.ready = false →
        (decode_thread_finish ms).broadcasts = ms.broadcasts + 1)) ∧
    (∀ (ms : MediaState) (len : Nat),
      (media_read_audio ms len).1.ready = ms.ready) ∧
    (∀ (rate : Nat) (pts : Int) (timebase : ℚ) (f : Frame) (ms : MediaState),
      (decode_audio_skip rate pts timebase f ms).ready = ms.ready) ∧
    (∀ (b : Bool) (ms : MediaState), (media_start b ms).ready = ms.ready) ∧
    (∀ (ms ms' : MediaState), media_close ms = .signaled ms' →
      ms'.ready = ms.ready) ∧
    (∀ ms : MediaState, (decode_loop_sync ms).ready = true) := by
  have hrb : ∀ ms : MediaState, (ready_broadcast_block ms).ready = true := by
    intro ms
    unfold ready_broadcast_block
    by_cases h : ms.ready = false
    · rw [if_pos h]
    · rw [if_neg h]
      exact Bool.not_eq_false _ |>.mp h
  refine ⟨hrb, ?_, ?_, ?_, ?_, ?_, ?_, ?_, ?_⟩
  · intro ms h
    unfold ready_broadcast_block
    rw [h]
    simp
  · intro ms h
    unfold ready_broadcast_block
    rw [if_pos h]
  · intro ms
    refine ⟨hrb ms, fun h => ?_⟩
    unfold decode_thread_finish ready_broadcast_block
    rw [if_pos h]
  · intro ms len
    rw [media_read_audio_eq]
    have hcf := fillLoop_controlFields (len + 2 * ms.audio_queue.length + 2)
      { ms with audio_duration := 0 } [] 0 len
    have hready : (fillLoop (len + 2 * ms.audio_queue.length + 2)
        { ms with audio_duration := 0 } [] 0 len).1.ready = ms.ready :=
      congrArg (fun t => t.1) hcf
    by_cases hz : (fillLoop (len + 2 * ms.audio_queue.length + 2)
        { ms with audio_duration := 0 } [] 0 len).2.2 = 0
    · simp only [hz, ne_eq, not_true_eq_false, if_false]
      exact hready
    · simp only [ne_eq, hz, not_false_eq_true, if_true]
      exact hready
  · intro rate pts timebase f ms
    unfold decode_audio_skip
    dsimp only
    split_ifs <;> rfl
  · intro b ms
    unfold media_start
    cases b <;> simp
  · intro ms ms' h
    unfold media_close at h
    by_cases hs : ms.started = false
    · rw [if_pos hs] at h
      cases h
    · rw [if_neg hs] at h
      injection h with h2
      rw [← h2]
  · intro ms
    exact hrb ms

/-- Witness for C6: the block leaves an already-ready state untouched,
and sets `ready` with a broadcast on a not-ready one. -/
theorem ready_flag_discipline_witness :
    ready_broadcast_block (baseState 0) = baseState 0 ∧
    (ready_broadcast_block { baseState 0 with ready := false }).broadcasts
      = (0 : Nat) + 1 :=
  ⟨ready_flag_discipline.2.1 (baseState 0) (by decide),
    ready_flag_discipline.2.2.1 { baseState 0 with ready := false } (by decide)⟩

/-- C8: `media_close` on a never-started handle deallocates the state
directly; on a started handle it only sets `quit` and broadcasts the
condition variable — every other field is unchanged, nothing is freed,
and the call returns without waiting. -/
theorem media_close_spec (ms : MediaState) :
    (ms.started = false → media_close ms = .freed) ∧
    (ms.started = true → media_close ms =
      .signaled { ms with quit := true, broadcasts := ms.broadcasts + 1 }) := by
  unfold media_close
  constructor
  · intro h
    rw [if_pos h]
  · intro h
    rw [h]
    simp

/-- Witness for C8: the started base state is only signalled; the same
state with `started` cleared is freed directly. -/
theorem media_close_spec_witness :
    media_close (baseState 0) = .signaled { baseState 0 with
      quit := true, broadcasts := (0 : Nat) + 1 } ∧
    media_close { baseState 0 with started := false } = .freed :=
  ⟨(media_close_spec (baseState 0)).2 (by decide),
    (media_close_spec { baseState 0 with started := false }).1 (by decide)⟩

/-- C10: `media_start` sets `started` exactly when thread creation
succeeds; on failure the handle is unchanged, so a subsequent
`media_close` takes the not-started branch and deallocates directly. -/
theorem media_start_spec (ms : MediaState) (ok : Bool)
    (h : ms.started = false) :
    ((media_start ok ms).started = ok) ∧
    (media_start false ms = ms) ∧
    (media_close (media_start false ms) = .freed) := by
  unfold media_start media_close
  cases ok <;> simp [h]

/-- Witness for C10 at a not-started concrete state. -/
theorem media_start_spec_witness :
    ((media_start true { baseState 0 with started := false }).started = true) ∧
    (media_close (media_start false { baseState 0 with started := false })
      = .freed) :=
  ⟨(media_start_spec { baseState 0 with started := false } true (by decide)).1,
    (media_start_spec { baseState 0 with started := false } true (by decide)).2.2⟩

end FFMedia
